import Mathlib

/-!
# go-server-skeleton: lifecycle orchestrator, shutdown coordinator, batched log sink

A shallow embedding of

* `pkg/ext/hook.go`      (namespace `ext`: `LogStoreHook`, `Fire`, `Flush`, `logrusToSyslog`),
* `pkg/ext/shutdown.go`  (namespace `ext`: `OnShutdown`, the signal goroutine of `init`),
* `pkg/endpoint/endpoint.go` (namespace `endpoint`: `Run`),

followed by the theorems about them.

Conventions of the embedding.

* Go `error` values are `Option error`; `none` is `nil`.
* A Go `map[string]T` is an association list; `mapSet` is the assignment `m[k] = v`
  and `mapGet` the read `m[k]`.  Ranging over a map visits the list in order,
  which is one of the iteration orders Go allows.
* Clock readings are `Int` nanoseconds of the monotonic clock; a `time.Time` carried by a
  log entry is its Unix time in seconds (the only observation the code makes of it).
* The remote store, the clock and the blocking `Run`/`Stop` of a listener are the
  environment: their outcomes are inputs of the model.
-/

/-- Go error values the modelled code can tell apart. -/
inductive error where
  | ErrServerClosed
  | other (msg : String)
  deriving DecidableEq, Repr

namespace logrus

/-- Type `logrus.Level` is a `uint32`. -/
abbrev Level := Nat

def PanicLevel : Level := 0
def FatalLevel : Level := 1
def ErrorLevel : Level := 2
def WarnLevel : Level := 3
def InfoLevel : Level := 4
def DebugLevel : Level := 5
def TraceLevel : Level := 6

end logrus

namespace sls

/-- One key/value pair of a remote log line (`sls.LogContent`). -/
structure LogContent where
  Key : String
  Value : String
  deriving DecidableEq, Repr

/-- One remote log line (`sls.Log`); `Time` is a `uint32`. -/
structure Log where
  Time : Nat
  Contents : List LogContent
  deriving DecidableEq, Repr

/-- The request of one remote put (`sls.LogGroup`). -/
structure LogGroup where
  Topic : String
  Source : String
  Logs : List Log
  deriving DecidableEq, Repr

/-- The remote store behind `*sls.LogStore`, as the sink observes it: `fails k` tells
whether the `k`-th `PutLogs` call made on the store returns an error, and `puts` is the
history of the requests received, each with `true` when it was accepted. -/
structure LogStore where
  Name : String
  fails : Nat → Bool
  puts : List (LogGroup × Bool)

/-- The call `store.PutLogs(lg)`: the request is recorded together with its outcome. -/
def LogStore.PutLogs (s : LogStore) (lg : LogGroup) : LogStore × Option error :=
  if s.fails s.puts.length then
    ({ s with puts := s.puts ++ [(lg, false)] }, some (error.other "PutLogs"))
  else
    ({ s with puts := s.puts ++ [(lg, true)] }, none)

end sls

namespace ext

def batchSize : Nat := 100
def flushInterval : Int := 3 * 1000000000
def keyMessage : String := "message"
def keyLevel : String := "level"

/-- Largest `time.Duration` (an `int64` of nanoseconds). -/
def maxDuration : Int := 9223372036854775807
/-- Smallest `time.Duration`. -/
def minDuration : Int := -9223372036854775808

/-- The value of `time.Since(t)` when the monotonic clock reads `now`: the difference,
saturated to the range of `time.Duration`. -/
def Since (now t : Int) : Int :=
  if now - t > maxDuration then maxDuration
  else if now - t < minDuration then minDuration
  else now - t

/-- The assignment `m[k] = v` on a map kept as an association list. -/
def mapSet {β : Type} (m : List (String × β)) (k : String) (v : β) : List (String × β) :=
  match m with
  | [] => [(k, v)]
  | (k1, v1) :: rest => if k1 = k then (k, v) :: rest else (k1, v1) :: mapSet rest k v

/-- The read `m[k]` of a map kept as an association list; `none` when the key is absent. -/
def mapGet {β : Type} (m : List (String × β)) (k : String) : Option β :=
  match m with
  | [] => none
  | (k1, v1) :: rest => if k1 = k then some v1 else mapGet rest k

/-- A value of type `interface{}`: a string, or anything else together with the text
that `fmt.Sprintf("%v", v)` renders for it. -/
inductive Value where
  | str (s : String)
  | other (rendering : String)
  deriving DecidableEq, Repr

def toString (v : Value) : String :=
  match v with
  | Value.str vv => vv
  | Value.other rendering => rendering

def logrusToSyslog (level : logrus.Level) : Int :=
  if level = logrus.PanicLevel then 0
  else if level = logrus.FatalLevel then 2
  else if level = logrus.ErrorLevel then 3
  else if level = logrus.WarnLevel then 4
  else if level = logrus.InfoLevel then 6
  else if level = logrus.DebugLevel then 7
  else if level = logrus.TraceLevel then 8
  else -1

/-- The decimal rendering `strconv.Itoa`. -/
def Itoa (i : Int) : String :=
  match i with
  | Int.ofNat n => Nat.repr n
  | Int.negSucc n => "-" ++ Nat.repr (n + 1)

/-- The fields of a `logrus.Entry` that `Fire` reads. -/
structure Entry where
  Time : Int
  Level : logrus.Level
  Message : String
  Data : List (String × Value)
  deriving DecidableEq, Repr

structure Message where
  Time : Int
  Contents : List (String × String)
  deriving DecidableEq, Repr

/-- A line written with the standard `log` package by `Flush`. -/
inductive LogLine where
  | discard (err : error)
  | flushed (size : Nat) (store : String)
  deriving DecidableEq, Repr

/-- The sink.  The mutex is not modelled: calls are taken one at a time.  The field `stdlog`
is the output of the standard logger, kept with the sink to make it observable. -/
structure LogStoreHook where
  store : sls.LogStore
  topic : String
  source : String
  extra : List (String × Value)
  messages : List Message
  flushTime : Int
  stdlog : List LogLine

/-- What `GetProject` / `GetLogStore` of the remote client answer: the stores of the
projects that exist. -/
abbrev Client := String → Option (String → Option sls.LogStore)

structure LogStoreConfig where
  Project : String
  Store : String
  Topic : String
  Source : String
  Extra : List (String × Value)

/-- Constructor `NewLogStoreHook`; `now` is the reading of `time.Now()`. -/
def NewLogStoreHook (client : Client) (c : LogStoreConfig) (now : Int) :
    Except String LogStoreHook :=
  match client c.Project with
  | none => Except.error "unknown LogStore project"
  | some project =>
    match project c.Store with
    | none => Except.error "unknown LogStore name"
    | some store =>
      Except.ok
        { store := store, topic := c.Topic, source := c.Source, extra := c.Extra,
          messages := [], flushTime := now, stdlog := [] }

/-- The record `m` that `Fire` builds from the entry before taking the lock. -/
def Fire.message (extra : List (String × Value)) (e : Entry) : Message :=
  let c0 : List (String × String) := []
  let c1 := mapSet c0 keyMessage e.Message
  let c2 := mapSet c1 keyLevel (Itoa (logrusToSyslog e.Level))
  let c3 := extra.foldl (fun c kv => mapSet c kv.1 (toString kv.2)) c2
  let c4 := e.Data.foldl (fun c kv => mapSet c kv.1 (toString kv.2)) c3
  { Time := e.Time, Contents := c4 }

/-- The conversion of one buffered record into a remote log line, the body of the first
loop of `Flush`; `uint32` truncates the Unix time. -/
def Flush.toLog (m : Message) : sls.Log :=
  { Time := (m.Time % 4294967296).toNat,
    Contents := m.Contents.map (fun kv => { Key := kv.1, Value := kv.2 }) }

/-- The loop of `Flush` that runs after a failed batch put: one put per log line, a failed
one is logged and dropped. -/
def Flush.each (topic source : String) :
    List sls.Log → sls.LogStore × List LogLine → sls.LogStore × List LogLine
  | [], acc => acc
  | message :: rest, (store, out) =>
    match store.PutLogs { Topic := topic, Source := source, Logs := [message] } with
    | (store1, some err) => Flush.each topic source rest (store1, out ++ [LogLine.discard err])
    | (store1, none) => Flush.each topic source rest (store1, out)

/-- The remote calls of `Flush`: the batch put and, when it fails, the loop of single puts.
The result is the store and the standard log afterwards. -/
def Flush.send (h : LogStoreHook) : sls.LogStore × List LogLine :=
  let messages := h.messages.map Flush.toLog
  let lg : sls.LogGroup := { Topic := h.topic, Source := h.source, Logs := messages }
  match h.store.PutLogs lg with
  | (store1, some _) => Flush.each h.topic h.source lg.Logs (store1, h.stdlog)
  | (store1, none) => (store1, h.stdlog)

/-- Method `Flush(force)`.  `tSince` is the clock reading taken by `time.Since`, `tNow` the
one taken by the final `time.Now()`. -/
def Flush (h : LogStoreHook) (force : Bool) (tSince tNow : Int) : LogStoreHook × Option error :=
  if h.messages.length = 0 ∨
      (!force) = true ∧ h.messages.length < batchSize ∧ Since tSince h.flushTime < flushInterval then
    (h, none)
  else
    let size := h.messages.length
    let after := Flush.send h
    ({ h with
        store := after.1
        stdlog := after.2 ++ [LogLine.flushed size after.1.Name]
        flushTime := tNow
        messages := [] }, none)

/-- Method `Fire(e)`, with the clock readings its `Flush` takes. -/
def Fire (h : LogStoreHook) (e : Entry) (tSince tNow : Int) : LogStoreHook × Option error :=
  let m := Fire.message h.extra e
  let h1 := { h with messages := h.messages ++ [m] }
  match Flush h1 false tSince tNow with
  | (h2, some _) => (h2, some (error.other "while flush log messages"))
  | (h2, none) => (h2, none)

/-- A single-record request, as the loop of `Flush` builds it. -/
def Flush.single (topic source : String) (message : sls.Log) : sls.LogGroup :=
  { Topic := topic, Source := source, Logs := [message] }

/-- The batch request that `Flush` builds from the buffer. -/
def Flush.batch (h : LogStoreHook) : sls.LogGroup :=
  { Topic := h.topic, Source := h.source, Logs := h.messages.map Flush.toLog }

/-- The history that the loop of single puts leaves on a store whose next call is the
`k`-th: one request per log line, in order, each with its outcome. -/
def Flush.eachPuts (topic source : String) (fails : Nat → Bool) :
    Nat → List sls.Log → List (sls.LogGroup × Bool)
  | _, [] => []
  | k, message :: rest =>
    (Flush.single topic source message, !fails k) :: Flush.eachPuts topic source fails (k + 1) rest

/-- A sequence of `Fire` calls, each with its entry and its two clock readings. -/
def fireAll (h : LogStoreHook) (fires : List (Entry × Int × Int)) : LogStoreHook :=
  fires.foldl (fun h1 f => (Fire h1 f.1 f.2.1 f.2.2).1) h

/-- A run of the process as the sink sees it: `Fire` and `Flush` calls, each taking
`latency` nanoseconds between its two clock readings, and stretches of time in which the
sink is not called. -/
inductive Op where
  | fire (e : Entry) (latency : Nat)
  | flush (force : Bool) (latency : Nat)
  | wait (d : Nat)
  deriving DecidableEq, Repr

/-- The sink together with the monotonic clock. -/
structure Sys where
  hook : LogStoreHook
  clock : Int

/-- One operation.  Nothing in `hook.go` runs between calls (there is no timer and no
goroutine), so waiting moves the clock only. -/
def Sys.step (s : Sys) : Op → Sys
  | Op.fire e latency =>
    { hook := (Fire s.hook e s.clock (s.clock + latency)).1, clock := s.clock + latency }
  | Op.flush force latency =>
    { hook := (Flush s.hook force s.clock (s.clock + latency)).1, clock := s.clock + latency }
  | Op.wait d => { s with clock := s.clock + d }

def Sys.run (s : Sys) (ops : List Op) : Sys :=
  ops.foldl Sys.step s

/-- The buffer length that the guard of `Flush` reads during the operation, when the
operation evaluates the guard: inside `Fire` the record has been appended already. -/
def Sys.decisionLen (s : Sys) : Op → Option Nat
  | Op.fire _ _ => some (s.hook.messages.length + 1)
  | Op.flush _ _ => some s.hook.messages.length
  | Op.wait _ => none

/-- What the signal goroutine of `init` does, in order. -/
inductive Event where
  | call (i : Nat)
  | close
  deriving DecidableEq, Repr

/-- The package state of `shutdown.go` and the state `world` that the hooks act on.
`chQuit` counts the `close(chQuit)` executed (0: the channel is open); `trace` records the
steps of the signal goroutine. -/
structure Process (α : Type) where
  hooks : List (α → α)
  chQuit : Nat
  trace : List Event
  world : α

/-- The package state once `init` has run and before any registration. -/
def Process.start {α : Type} (world : α) : Process α :=
  { hooks := [], chQuit := 0, trace := [], world := world }

def OnShutdown {α : Type} (p : Process α) (hook : α → α) : Process α :=
  { p with hooks := p.hooks ++ [hook] }

/-- The loop `for i := len(hooks) - 1; i >= 0; i--` of the signal goroutine; the first
argument is `i + 1`. -/
def init.loop {α : Type} (hooks : List (α → α)) : Nat → α × List Event → α × List Event
  | 0, acc => acc
  | i + 1, (world, trace) =>
    match hooks[i]? with
    | some hook => init.loop hooks i (hook world, trace ++ [Event.call i])
    | none => (world, trace)

/-- The goroutine of `init` from the arrival of the signal on: the hooks, then
`close(chQuit)`. -/
def init.signal {α : Type} (p : Process α) : Process α :=
  let r := init.loop p.hooks p.hooks.length (p.world, p.trace)
  { p with world := r.1, trace := r.2 ++ [Event.close], chQuit := p.chQuit + 1 }

/-- Function `WaitShutdown`: `some ()` when the receive from `chQuit` returns, `none` while it
blocks. -/
def WaitShutdown {α : Type} (p : Process α) : Option Unit :=
  if 0 < p.chQuit then some () else none

end ext

namespace shutdown

/-- Modelled from the spec: `shutdown.AddHook` of package `pkg/ext/shutdown`, which
`endpoint.go` imports and which is not among the sources.  The spec (4.3, `Register`) says
that registering appends the hook to the ordered list; that is what `ext.OnShutdown` of
`pkg/ext/shutdown.go` does. -/
def AddHook {α : Type} (p : ext.Process α) (hook : α → α) : ext.Process α :=
  ext.OnShutdown p hook

end shutdown

namespace errgroup

/-- Type `errgroup.Group` of `golang.org/x/sync/errgroup`: the counter of its `WaitGroup` and
the error stored by its `errOnce`. -/
structure Group where
  wg : Nat
  err : Option error
  deriving DecidableEq, Repr

/-- Method `Go`: the counter goes up; the task itself is run by the scheduler. -/
def Group.Go (g : Group) : Group :=
  { g with wg := g.wg + 1 }

/-- The end of a task started with `Go` whose function returned `r`: the first non-nil
error is kept, the counter goes down. -/
def Group.done (g : Group) (r : Option error) : Group :=
  { wg := g.wg - 1,
    err := match g.err with
      | some e => some e
      | none => r }

/-- Method `Wait`: `none` while it blocks, the stored error once every task is done. -/
def Group.Wait (g : Group) : Option (Option error) :=
  if g.wg = 0 then some g.err else none

end errgroup

namespace endpoint

/-- A value of the interface `Endpoint`, by what its methods return: `run` is the error
that the blocking `Run()` returns when it returns, `stop` the one `Stop()` returns. -/
structure Endpoint where
  name : String
  run : Option error
  stop : Option error
  deriving DecidableEq, Repr

/-- What a shutdown hook registered by `Run` does, in order. -/
inductive Action where
  | debug (name msg : String)
  | warn (name : String) (err : error) (msg : String)
  | stop (e : Endpoint)
  deriving DecidableEq, Repr

/-- The closure that `Run` passes to `shutdown.AddHook` for the endpoint `e`. -/
def Run.hook (e : Endpoint) (world : List Action) : List Action :=
  let w1 := world ++ [Action.debug e.name "Shutdown..."]
  let w2 := w1 ++ [Action.stop e]
  match e.stop with
  | some err => w2 ++ [Action.warn e.name err "Fail to shutdown"]
  | none => w2 ++ [Action.debug e.name "Stopped"]

/-- The state of a call `Run(endpoints...)`: the first `launched` endpoints have been through
the loop body; `returned` lists the tasks whose `e.Run()` has returned, oldest first. -/
structure State where
  launched : Nat
  group : errgroup.Group
  returned : List Nat
  proc : ext.Process (List Action)

/-- A scheduling step: the goroutine that called `Run` moves on, or the task of endpoint `i`
returns from `e.Run()`. -/
inductive Step where
  | main
  | ret (i : Nat)
  deriving DecidableEq, Repr

/-- The state on entry to `Run`. -/
def Run.start (proc : ext.Process (List Action)) : State :=
  { launched := 0, group := { wg := 0, err := none }, returned := [], proc := proc }

/-- One scheduling step of `Run`; `none` when the step cannot happen (the task has not been
started, or has returned already). -/
def Run.step (endpoints : List Endpoint) (s : State) : Step → Option State
  | Step.main =>
    match endpoints[s.launched]? with
    | some e =>
      some { s with
        launched := s.launched + 1
        group := s.group.Go
        proc := shutdown.AddHook s.proc (Run.hook e) }
    | none => some s
  | Step.ret i =>
    if i < s.launched ∧ i ∉ s.returned then
      match endpoints[i]? with
      | some e => some { s with group := s.group.done e.run, returned := s.returned ++ [i] }
      | none => none
    else none

def Run.exec (endpoints : List Endpoint) : State → List Step → Option State
  | s, [] => some s
  | s, st :: rest =>
    match Run.step endpoints s st with
    | some s1 => Run.exec endpoints s1 rest
    | none => none

/-- The value `Run` returns: `none` while the caller is still in the loop or blocked in
`group.Wait()`. -/
def Run.result (endpoints : List Endpoint) (s : State) : Option (Option error) :=
  if s.launched = endpoints.length then s.group.Wait else none

/-- The test `err != nil && !errors.Is(err, http.ErrServerClosed)` of `main`: whether the
host logs the result of `Run` as a failure. -/
def main.reports (err : Option error) : Bool :=
  match err with
  | none => false
  | some error.ErrServerClosed => false
  | some (error.other _) => true

/-- The errors with which the tasks returned, oldest first. -/
def Run.outcomes (endpoints : List Endpoint) (s : State) : List (Option error) :=
  s.returned.map (fun i => (endpoints[i]?).bind Endpoint.run)

/-- The first non-nil error of a list of results. -/
def firstError : List (Option error) → Option error
  | [] => none
  | some e :: _ => some e
  | none :: rest => firstError rest

/-- The first error of a list of results that is not the benign `http.ErrServerClosed`:
the result the specification gives to `Run`. -/
def firstFatal : List (Option error) → Option error
  | [] => none
  | some (error.other msg) :: _ => some (error.other msg)
  | _ :: rest => firstFatal rest

/-- The `Stop` calls among the actions, in order. -/
def stops : List Action → List Endpoint
  | [] => []
  | Action.stop e :: rest => e :: stops rest
  | _ :: rest => stops rest

/-- What holds of every state of a call of `Run` entered with the coordinator in state
`p0`. -/
def Run.Inv (endpoints : List Endpoint) (p0 : ext.Process (List Action)) (s : State) : Prop :=
  s.launched ≤ endpoints.length ∧
    s.proc.hooks = p0.hooks ++ (endpoints.take s.launched).map Run.hook ∧
    s.proc.world = p0.world ∧
    s.proc.trace = p0.trace ∧
    s.proc.chQuit = p0.chQuit ∧
    s.returned.Nodup ∧
    (∀ i ∈ s.returned, i < s.launched) ∧
    s.group.wg + s.returned.length = s.launched ∧
    s.group.err = firstError (Run.outcomes endpoints s)

end endpoint

/-! ## Concrete inputs -/

namespace ext

/-- A store that accepts every put. -/
def demoStore : sls.LogStore :=
  { Name := "app", fails := fun _ => false, puts := [] }

/-- A store whose first and fourth calls fail. -/
def flakyStore : sls.LogStore :=
  { Name := "app", fails := fun k => k = 0 || k = 3, puts := [] }

/-- An empty sink last flushed at clock reading 0. -/
def demoHook : LogStoreHook :=
  { store := demoStore, topic := "topic", source := "host", extra := [],
    messages := [], flushTime := 0, stdlog := [] }

def demoEntry : Entry :=
  { Time := 1700000000, Level := logrus.InfoLevel, Message := "served", Data := [] }

/-- An entry whose data has a field named like the built-in message field. -/
def clashEntry : Entry :=
  { Time := 1700000000, Level := logrus.InfoLevel, Message := "served",
    Data := [("message", Value.str "shadow")] }

/-- A sink over the flaky store holding five records. -/
def fiveHook : LogStoreHook :=
  { store := flakyStore, topic := "topic", source := "host", extra := [],
    messages := (List.range 5).map (fun i => { Time := i, Contents := [("message", "m")] }),
    flushTime := 0, stdlog := [] }

/-- A client that knows one project with one store. -/
def demoClient : Client :=
  fun project =>
    if project = "proj" then some (fun store => if store = "logs" then some demoStore else none)
    else none

def demoConfig : LogStoreConfig :=
  { Project := "proj", Store := "logs", Topic := "topic", Source := "host", Extra := [] }

end ext

namespace endpoint

/-- A listener that returns the benign error, as a stopped HTTP server does. -/
def closedServer : Endpoint :=
  { name := "rest", run := some error.ErrServerClosed, stop := none }

/-- A listener that fails for good, and whose `Stop` fails too. -/
def brokenServer : Endpoint :=
  { name := "app", run := some (error.other "bind: address already in use"),
    stop := some (error.other "timeout") }

/-- A listener that returns without error. -/
def quietServer : Endpoint :=
  { name := "metrics", run := none, stop := none }

end endpoint

/-! ## Theorems: the log sink (`pkg/ext/hook.go`) -/

namespace ext

theorem batchSize_pos : 0 < batchSize := by decide

/-- Saturation does not change the comparison of `time.Since` with the flush interval. -/
theorem Since_lt_flushInterval (now t : Int) :
    Since now t < flushInterval ↔ now - t < flushInterval := by
  unfold Since flushInterval maxDuration minDuration
  split_ifs <;> omega

theorem mapGet_mapSet_same {β : Type} (m : List (String × β)) (k : String) (v : β) :
    mapGet (mapSet m k v) k = some v := by
  induction m with
  | nil => simp [mapSet, mapGet]
  | cons p rest ih =>
    obtain ⟨k1, v1⟩ := p
    by_cases hk : k1 = k
    · simp [mapSet, mapGet, hk]
    · simp [mapSet, mapGet, hk, ih]

theorem mapGet_mapSet_other {β : Type} (m : List (String × β)) (k k2 : String) (v : β)
    (hne : k ≠ k2) : mapGet (mapSet m k v) k2 = mapGet m k2 := by
  induction m with
  | nil => simp [mapSet, mapGet, hne]
  | cons p rest ih =>
    obtain ⟨k1, v1⟩ := p
    by_cases hk : k1 = k
    · subst hk
      simp [mapSet, mapGet, hne]
    · by_cases hk2 : k1 = k2
      · simp [mapSet, mapGet, hk, hk2]
        subst hk2
        simp [hk, mapGet]
      · simp [mapSet, mapGet, hk, hk2, ih]

/-- A key that is present stays present under any assignment. -/
theorem mapGet_mapSet_isSome {β : Type} (m : List (String × β)) (k k2 : String) (v : β)
    (hsome : (mapGet m k2).isSome = true) : (mapGet (mapSet m k v) k2).isSome = true := by
  by_cases hk : k = k2
  · subst hk
    simp [mapGet_mapSet_same]
  · rw [mapGet_mapSet_other m k k2 v hk]
    exact hsome

theorem mapGet_foldl_isSome (kvs : List (String × Value)) (m : List (String × String))
    (k2 : String) (hsome : (mapGet m k2).isSome = true) :
    (mapGet (kvs.foldl (fun c kv => mapSet c kv.1 (toString kv.2)) m) k2).isSome = true := by
  induction kvs generalizing m with
  | nil => simpa using hsome
  | cons kv rest ih =>
    simp only [List.foldl_cons]
    exact ih _ (mapGet_mapSet_isSome m kv.1 k2 _ hsome)

theorem mapGet_foldl_absent (kvs : List (String × Value)) (m : List (String × String))
    (k2 : String) (habsent : k2 ∉ kvs.map Prod.fst) :
    mapGet (kvs.foldl (fun c kv => mapSet c kv.1 (toString kv.2)) m) k2 = mapGet m k2 := by
  induction kvs generalizing m with
  | nil => rfl
  | cons kv rest ih =>
    simp only [List.map_cons, List.mem_cons, not_or] at habsent
    simp only [List.foldl_cons]
    rw [ih _ habsent.2]
    exact mapGet_mapSet_other m kv.1 k2 _ (fun h => habsent.1 h.symm)

/-- When its guard holds, `Flush` returns at once. -/
theorem Flush_skip (h : LogStoreHook) (force : Bool) (tSince tNow : Int)
    (hc : h.messages = [] ∨
      (force = false ∧ h.messages.length < batchSize ∧ tSince - h.flushTime < flushInterval)) :
    Flush h force tSince tNow = (h, none) := by
  unfold Flush
  rw [if_pos]
  rcases hc with h0 | ⟨hf, hl, ht⟩
  · left
    simp [h0]
  · right
    exact ⟨by simp [hf], hl, (Since_lt_flushInterval _ _).2 ht⟩

/-- When its guard fails, `Flush` sends the buffer, empties it and resets the timestamp. -/
theorem Flush_go (h : LogStoreHook) (force : Bool) (tSince tNow : Int)
    (hc : ¬ (h.messages = [] ∨
      (force = false ∧ h.messages.length < batchSize ∧ tSince - h.flushTime < flushInterval))) :
    Flush h force tSince tNow =
      ({ h with
          store := (Flush.send h).1
          stdlog := (Flush.send h).2 ++ [LogLine.flushed h.messages.length (Flush.send h).1.Name]
          flushTime := tNow
          messages := [] }, none) := by
  unfold Flush
  rw [if_neg]
  intro hg
  apply hc
  rcases hg with h0 | ⟨hf, hl, ht⟩
  · left
    exact List.length_eq_zero.mp h0
  · right
    exact ⟨by simpa using hf, hl, (Since_lt_flushInterval _ _).1 ht⟩

theorem eachPuts_length (topic source : String) (fails : Nat → Bool) (k : Nat)
    (logs : List sls.Log) : (Flush.eachPuts topic source fails k logs).length = logs.length := by
  induction logs generalizing k with
  | nil => rfl
  | cons l rest ih => simp [Flush.eachPuts, ih]

theorem eachPuts_requests (topic source : String) (fails : Nat → Bool) (k : Nat)
    (logs : List sls.Log) :
    (Flush.eachPuts topic source fails k logs).map Prod.fst =
      logs.map (Flush.single topic source) := by
  induction logs generalizing k with
  | nil => rfl
  | cons l rest ih => simp [Flush.eachPuts, ih]

theorem eachPuts_outcomes (topic source : String) (fails : Nat → Bool) (k : Nat)
    (logs : List sls.Log) :
    (Flush.eachPuts topic source fails k logs).map Prod.snd =
      (List.range logs.length).map (fun i => !fails (k + i)) := by
  induction logs generalizing k with
  | nil => rfl
  | cons l rest ih =>
    simp only [Flush.eachPuts, List.map_cons, List.length_cons, List.range_succ_eq_map,
      List.map_map, ih (k + 1)]
    simp only [Nat.add_zero, List.cons.injEq, true_and]
    apply List.map_congr_left
    intro i _
    simp only [Function.comp_apply]
    congr 2
    omega

/-- The loop of single puts appends its requests to the history and one discard line per
failed put to the standard log; it leaves the rest of the store alone. -/
theorem each_spec (topic source : String) (logs : List sls.Log) (store : sls.LogStore)
    (out : List LogLine) :
    (Flush.each topic source logs (store, out)).1.puts =
        store.puts ++ Flush.eachPuts topic source store.fails store.puts.length logs ∧
      (Flush.each topic source logs (store, out)).1.fails = store.fails ∧
      (Flush.each topic source logs (store, out)).1.Name = store.Name ∧
      (Flush.each topic source logs (store, out)).2 =
        out ++ List.replicate
          ((Flush.eachPuts topic source store.fails store.puts.length logs).countP
            (fun p => !p.2))
          (LogLine.discard (error.other "PutLogs")) := by
  induction logs generalizing store out with
  | nil => simp [Flush.each, Flush.eachPuts]
  | cons l rest ih =>
    by_cases hf : store.fails store.puts.length = true
    · have hput : store.PutLogs { Topic := topic, Source := source, Logs := [l] } =
          ({ store with puts := store.puts ++ [(Flush.single topic source l, false)] },
            some (error.other "PutLogs")) := by
        simp [sls.LogStore.PutLogs, hf, Flush.single]
      simp only [Flush.each, hput]
      obtain ⟨h1, h2, h3, h4⟩ := ih
        { store with puts := store.puts ++ [(Flush.single topic source l, false)] }
        (out ++ [LogLine.discard (error.other "PutLogs")])
      refine ⟨?_, h2, h3, ?_⟩
      · rw [h1]
        simp [Flush.eachPuts, hf]
      · rw [h4]
        simp [Flush.eachPuts, hf, List.replicate_succ, List.countP_cons]
    · have hf2 : store.fails store.puts.length = false := by simpa using hf
      have hput : store.PutLogs { Topic := topic, Source := source, Logs := [l] } =
          ({ store with puts := store.puts ++ [(Flush.single topic source l, true)] }, none) := by
        simp [sls.LogStore.PutLogs, hf2, Flush.single]
      simp only [Flush.each, hput]
      obtain ⟨h1, h2, h3, h4⟩ := ih
        { store with puts := store.puts ++ [(Flush.single topic source l, true)] } out
      refine ⟨?_, h2, h3, ?_⟩
      · rw [h1]
        simp [Flush.eachPuts, hf2]
      · rw [h4]
        simp [Flush.eachPuts, hf2, List.countP_cons]

/-- The remote calls of one flush: the batch put first and, when it fails, one single put per
record. -/
theorem send_spec (h : LogStoreHook) :
    (Flush.send h).1.puts =
        h.store.puts ++
          (Flush.batch h, !h.store.fails h.store.puts.length) ::
            (if h.store.fails h.store.puts.length then
              Flush.eachPuts h.topic h.source h.store.fails (h.store.puts.length + 1)
                (h.messages.map Flush.toLog)
            else []) ∧
      (Flush.send h).1.fails = h.store.fails ∧
      (Flush.send h).1.Name = h.store.Name ∧
      (Flush.send h).2 =
        h.stdlog ++
          (if h.store.fails h.store.puts.length then
            List.replicate
              ((Flush.eachPuts h.topic h.source h.store.fails (h.store.puts.length + 1)
                (h.messages.map Flush.toLog)).countP (fun p => !p.2))
              (LogLine.discard (error.other "PutLogs"))
          else []) := by
  by_cases hf : h.store.fails h.store.puts.length = true
  · have hput : h.store.PutLogs
          { Topic := h.topic, Source := h.source, Logs := h.messages.map Flush.toLog } =
        ({ h.store with puts := h.store.puts ++ [(Flush.batch h, false)] },
          some (error.other "PutLogs")) := by
      simp [sls.LogStore.PutLogs, hf, Flush.batch]
    simp only [Flush.send, hput]
    obtain ⟨h1, h2, h3, h4⟩ := each_spec h.topic h.source (h.messages.map Flush.toLog)
      { h.store with puts := h.store.puts ++ [(Flush.batch h, false)] } h.stdlog
    refine ⟨?_, h2, h3, ?_⟩
    · rw [h1]
      simp [hf]
    · rw [h4]
      simp [hf]
  · have hf2 : h.store.fails h.store.puts.length = false := by simpa using hf
    have hput : h.store.PutLogs
          { Topic := h.topic, Source := h.source, Logs := h.messages.map Flush.toLog } =
        ({ h.store with puts := h.store.puts ++ [(Flush.batch h, true)] }, none) := by
      simp [sls.LogStore.PutLogs, hf2, Flush.batch]
    simp only [Flush.send, hput]
    simp [hf2]

theorem Flush_err (h : LogStoreHook) (force : Bool) (tSince tNow : Int) :
    (Flush h force tSince tNow).2 = none := by
  unfold Flush
  split_ifs <;> rfl

/-- Method `Fire` is the append followed by `Flush(false)`, and returns no error. -/
theorem Fire_eq (h : LogStoreHook) (e : Entry) (tSince tNow : Int) :
    Fire h e tSince tNow =
      ((Flush { h with messages := h.messages ++ [Fire.message h.extra e] } false
        tSince tNow).1, none) := by
  have herr := Flush_err { h with messages := h.messages ++ [Fire.message h.extra e] } false
    tSince tNow
  unfold Fire
  simp only
  generalize Flush { h with messages := h.messages ++ [Fire.message h.extra e] } false
    tSince tNow = r at herr
  obtain ⟨h2, err⟩ := r
  simp only at herr
  subst herr
  rfl

/-- What a flush that is not skipped leaves behind. -/
theorem Flush_go_spec (h : LogStoreHook) (force : Bool) (tSince tNow : Int)
    (hc : ¬ (h.messages = [] ∨
      (force = false ∧ h.messages.length < batchSize ∧ tSince - h.flushTime < flushInterval))) :
    (Flush h force tSince tNow).1.messages = [] ∧
      (Flush h force tSince tNow).1.flushTime = tNow ∧
      (Flush h force tSince tNow).1.extra = h.extra ∧
      (Flush h force tSince tNow).1.store.puts =
        h.store.puts ++
          (Flush.batch h, !h.store.fails h.store.puts.length) ::
            (if h.store.fails h.store.puts.length then
              Flush.eachPuts h.topic h.source h.store.fails (h.store.puts.length + 1)
                (h.messages.map Flush.toLog)
            else []) := by
  rw [Flush_go h force tSince tNow hc]
  exact ⟨rfl, rfl, rfl, (send_spec h).1⟩

/-- C8 (amended). `Flush(force)` is a no-op (no remote put, sink unchanged, no error)
exactly when the buffer is empty, or when `force` is false, the buffer is shorter than the
batch size and less than the flush interval has passed since the last flush. In every other
case it issues one batch put of the whole buffer tagged with the topic and the source of the
sink, followed, only when that put fails, by one single-record put per record. -/
theorem Flush_noop_or_batch (h : LogStoreHook) (force : Bool) (tSince tNow : Int) :
    ((h.messages = [] ∨
        (force = false ∧ h.messages.length < batchSize ∧
          tSince - h.flushTime < flushInterval)) ∧
      Flush h force tSince tNow = (h, none)) ∨
    (¬ (h.messages = [] ∨
        (force = false ∧ h.messages.length < batchSize ∧
          tSince - h.flushTime < flushInterval)) ∧
      (Flush h force tSince tNow).2 = none ∧
      ∃ ok rest,
        (Flush h force tSince tNow).1.store.puts =
          h.store.puts ++
            ({ Topic := h.topic, Source := h.source, Logs := h.messages.map Flush.toLog },
              ok) :: rest ∧
        rest.map Prod.fst =
          if ok = true then []
          else h.messages.map (fun m => Flush.single h.topic h.source (Flush.toLog m))) := by
  by_cases hc : h.messages = [] ∨
      (force = false ∧ h.messages.length < batchSize ∧ tSince - h.flushTime < flushInterval)
  · exact Or.inl ⟨hc, Flush_skip h force tSince tNow hc⟩
  · refine Or.inr ⟨hc, Flush_err h force tSince tNow, !h.store.fails h.store.puts.length, _,
      (Flush_go_spec h force tSince tNow hc).2.2.2, ?_⟩
    by_cases hf : h.store.fails h.store.puts.length = true
    · simp [hf, eachPuts_requests]
    · simp [hf]

/-- C8, as stated, fails: `Flush(true)` on an empty buffer issues no put, and neither does
`Flush(false)` on an empty buffer after the flush interval has passed. -/
theorem Flush_empty_counterexample :
    demoHook.messages = [] ∧
      (Flush demoHook true 5 6).1.store.puts = [] ∧
      ¬ (4000000000 - demoHook.flushTime < flushInterval) ∧
      (Flush demoHook false 4000000000 4000000001).1.store.puts = [] := by
  decide

/-- A `Fire` that reaches the batch size or the flush interval flushes the whole buffer,
the new record included. -/
theorem Fire_go_spec (h : LogStoreHook) (e : Entry) (tSince tNow : Int)
    (hc : batchSize ≤ h.messages.length + 1 ∨ flushInterval ≤ tSince - h.flushTime) :
    (Fire h e tSince tNow).1.messages = [] ∧
      (Fire h e tSince tNow).1.flushTime = tNow ∧
      ∃ ok rest,
        (Fire h e tSince tNow).1.store.puts =
          h.store.puts ++
            ({ Topic := h.topic, Source := h.source,
               Logs := (h.messages ++ [Fire.message h.extra e]).map Flush.toLog }, ok) :: rest := by
  rw [Fire_eq]
  have hgo : ¬ (({ h with messages := h.messages ++ [Fire.message h.extra e] } :
        LogStoreHook).messages = [] ∨
      ((false : Bool) = false ∧
        ({ h with messages := h.messages ++ [Fire.message h.extra e] } :
          LogStoreHook).messages.length < batchSize ∧
        tSince - ({ h with messages := h.messages ++ [Fire.message h.extra e] } :
          LogStoreHook).flushTime < flushInterval)) := by
    simp only [List.append_eq_nil, List.cons_ne_self, and_false, false_or, true_and,
      List.length_append, List.length_singleton, not_and, not_lt, reduceCtorEq]
    intro hl
    rcases hc with hb | ht
    · omega
    · exact ht
  obtain ⟨h1, h2, _, h4⟩ := Flush_go_spec _ false tSince tNow hgo
  exact ⟨h1, h2, _, _, h4⟩

/-- A `Fire` below the batch size and within the flush interval only appends. -/
theorem Fire_skip_spec (h : LogStoreHook) (e : Entry) (tSince tNow : Int)
    (hc : ¬ (batchSize ≤ h.messages.length + 1 ∨ flushInterval ≤ tSince - h.flushTime)) :
    Fire h e tSince tNow =
      ({ h with messages := h.messages ++ [Fire.message h.extra e] }, none) := by
  rw [Fire_eq, Flush_skip]
  right
  simp only [not_or, not_le] at hc
  refine ⟨rfl, ?_, hc.2⟩
  simp only [List.length_append, List.length_singleton]
  exact hc.1

/-- C6 (amended). `Fire` appends the record and then flushes if and only if the buffer
length, after the append, has reached the batch size or the time since the last flush is at
least the flush interval (greater than or equal to it); otherwise it returns without
flushing, the buffer being the old buffer plus the new record and the rest of the sink,
the flush timestamp included, unchanged. -/
theorem Fire_flush_iff (h : LogStoreHook) (e : Entry) (tSince tNow : Int) :
    ((batchSize ≤ h.messages.length + 1 ∨ flushInterval ≤ tSince - h.flushTime) ∧
      (Fire h e tSince tNow).1.messages = [] ∧
      (Fire h e tSince tNow).1.flushTime = tNow ∧
      ∃ ok rest,
        (Fire h e tSince tNow).1.store.puts =
          h.store.puts ++
            ({ Topic := h.topic, Source := h.source,
               Logs := (h.messages ++ [Fire.message h.extra e]).map Flush.toLog }, ok) :: rest) ∨
    (¬ (batchSize ≤ h.messages.length + 1 ∨ flushInterval ≤ tSince - h.flushTime) ∧
      Fire h e tSince tNow =
        ({ h with messages := h.messages ++ [Fire.message h.extra e] }, none)) := by
  by_cases hc : batchSize ≤ h.messages.length + 1 ∨ flushInterval ≤ tSince - h.flushTime
  · obtain ⟨h1, h2, ok, rest, h3⟩ := Fire_go_spec h e tSince tNow hc
    exact Or.inl ⟨hc, h1, h2, ok, rest, h3⟩
  · exact Or.inr ⟨hc, Fire_skip_spec h e tSince tNow hc⟩

/-- C6, as stated, fails: when exactly the flush interval has passed since the last flush
(so the elapsed time does not exceed it) and the buffer is far from full, `Fire` flushes. -/
theorem Fire_flush_at_interval_counterexample :
    ¬ (batchSize ≤ demoHook.messages.length + 1 ∨
        Since 3000000000 demoHook.flushTime > flushInterval) ∧
      (Fire demoHook demoEntry 3000000000 3000000001).1.messages = [] ∧
      (Fire demoHook demoEntry 3000000000 3000000001).1.flushTime = 3000000001 ∧
      (Fire demoHook demoEntry 3000000000 3000000001).1.store.puts =
        [({ Topic := "topic", Source := "host",
            Logs := [{ Time := 1700000000,
                       Contents := [{ Key := "message", Value := "served" },
                                    { Key := "level", Value := "6" }] }] }, true)] := by
  decide

/-- C5. When `Flush` is not skipped and the batch put fails, it attempts exactly one single
put per buffered record, in buffer order and once each; a record whose single put fails is
logged as discarded and not retried; `Flush` returns no error, the buffer is empty and the
flush timestamp is the clock reading taken at the end. Successful and discarded records add
up to the buffer length, so that of five records with exactly one failing, four are put. -/
theorem Flush_batch_failure (h : LogStoreHook) (force : Bool) (tSince tNow : Int)
    (hgo : ¬ (h.messages = [] ∨
      (force = false ∧ h.messages.length < batchSize ∧ tSince - h.flushTime < flushInterval)))
    (hfail : h.store.fails h.store.puts.length = true) :
    (Flush h force tSince tNow).2 = none ∧
      (Flush h force tSince tNow).1.messages = [] ∧
      (Flush h force tSince tNow).1.flushTime = tNow ∧
      ∃ singles : List (sls.LogGroup × Bool),
        (Flush h force tSince tNow).1.store.puts =
          h.store.puts ++
            ({ Topic := h.topic, Source := h.source, Logs := h.messages.map Flush.toLog },
              false) :: singles ∧
        singles.map Prod.fst =
          h.messages.map (fun m => Flush.single h.topic h.source (Flush.toLog m)) ∧
        singles.map Prod.snd =
          (List.range h.messages.length).map
            (fun i => !h.store.fails (h.store.puts.length + 1 + i)) ∧
        (Flush h force tSince tNow).1.stdlog =
          h.stdlog ++
            List.replicate (singles.countP (fun p => !p.2))
              (LogLine.discard (error.other "PutLogs")) ++
            [LogLine.flushed h.messages.length h.store.Name] ∧
        singles.countP (fun p => p.2) + singles.countP (fun p => !p.2) = h.messages.length ∧
        (h.messages.length = 5 → singles.countP (fun p => !p.2) = 1 →
          singles.countP (fun p => p.2) = 4) := by
  have hcount : ∀ l : List (sls.LogGroup × Bool),
      l.countP (fun p => p.2) + l.countP (fun p => !p.2) = l.length := by
    intro l
    induction l with
    | nil => rfl
    | cons p rest ih =>
      cases hp : p.2 <;> simp [List.countP_cons, hp] <;> omega
  refine ⟨Flush_err h force tSince tNow, (Flush_go_spec h force tSince tNow hgo).1,
    (Flush_go_spec h force tSince tNow hgo).2.1,
    Flush.eachPuts h.topic h.source h.store.fails (h.store.puts.length + 1)
      (h.messages.map Flush.toLog), ?_, ?_, ?_, ?_, ?_, ?_⟩
  · have hp := (Flush_go_spec h force tSince tNow hgo).2.2.2
    rw [hp]
    simp [hfail, Flush.batch]
  · rw [eachPuts_requests]
    simp
  · rw [eachPuts_outcomes]
    simp
  · rw [Flush_go h force tSince tNow hgo]
    obtain ⟨_, _, hname, hlog⟩ := send_spec h
    simp only [hname, hlog, hfail, if_true]
  · rw [hcount, eachPuts_length]
    simp
  · intro h5 h1
    have hsum := hcount (Flush.eachPuts h.topic h.source h.store.fails (h.store.puts.length + 1)
      (h.messages.map Flush.toLog))
    rw [eachPuts_length, List.length_map, h5, h1] at hsum
    omega

/-- C5 at a concrete input: five records, the batch put and the single put of the third
record fail; four single puts succeed, one record is discarded, the buffer is empty. -/
theorem Flush_batch_failure_witness :
    fiveHook.messages.length = 5 ∧
      ((Flush fiveHook true 1 2).1.store.puts.map Prod.snd =
        [false, true, true, false, true, true]) ∧
      (Flush fiveHook true 1 2).1.stdlog =
        [LogLine.discard (error.other "PutLogs"), LogLine.flushed 5 "app"] ∧
      (Flush fiveHook true 1 2).2 = none ∧
      (Flush fiveHook true 1 2).1.messages = [] ∧
      (Flush fiveHook true 1 2).1.flushTime = 2 :=
  have hthm := Flush_batch_failure fiveHook true 1 2 (by decide) (by decide)
  ⟨by decide, by decide, by decide, hthm.1, hthm.2.1, hthm.2.2.1⟩

/-- Below the batch size and within the flush interval, a sequence of `Fire` calls only
appends. -/
theorem fireAll_below (fires : List (Entry × Int × Int)) (h : LogStoreHook)
    (hlen : h.messages.length + fires.length < batchSize)
    (hwithin : ∀ f ∈ fires, f.2.1 - h.flushTime < flushInterval) :
    fireAll h fires =
      { h with messages := h.messages ++ fires.map (fun f => Fire.message h.extra f.1) } := by
  induction fires generalizing h with
  | nil => simp [fireAll]
  | cons f rest ih =>
    have hlen2 : h.messages.length + (rest.length + 1) < batchSize := by
      simpa using hlen
    have hin := hwithin f (List.mem_cons_self _ _)
    have hfire : Fire h f.1 f.2.1 f.2.2 =
        ({ h with messages := h.messages ++ [Fire.message h.extra f.1] }, none) := by
      apply Fire_skip_spec
      simp only [not_or, not_le]
      exact ⟨by omega, hin⟩
    have hrest := ih { h with messages := h.messages ++ [Fire.message h.extra f.1] }
      (by
        simp only [List.length_append, List.length_singleton]
        omega)
      (fun g hg => hwithin g (List.mem_cons_of_mem _ hg))
    unfold fireAll at hrest ⊢
    simp only [List.foldl_cons, hfire, hrest, List.map_cons, List.append_assoc,
      List.singleton_append]

/-- C4. From an empty buffer, with every `Fire` less than the flush interval after the last
flush: after `k` calls, `k` below the batch size, no put has been issued and the buffer holds
exactly the `k` records in firing order; the call that brings the count to the batch size
issues a batch put of exactly all the records in firing order and leaves the buffer empty. -/
theorem Fire_fills_batch (h : LogStoreHook) (fires : List (Entry × Int × Int))
    (hempty : h.messages = []) (hlen : fires.length = batchSize)
    (hwithin : ∀ f ∈ fires, f.2.1 - h.flushTime < flushInterval) :
    (∀ k, k < batchSize →
      (fireAll h (fires.take k)).messages =
          (fires.take k).map (fun f => Fire.message h.extra f.1) ∧
        (fireAll h (fires.take k)).store.puts = h.store.puts) ∧
      (fireAll h fires).messages = [] ∧
      ∃ ok rest,
        (fireAll h fires).store.puts =
          h.store.puts ++
            ({ Topic := h.topic, Source := h.source,
               Logs := fires.map (fun f => Flush.toLog (Fire.message h.extra f.1)) },
              ok) :: rest := by
  refine ⟨?_, ?_⟩
  · intro k hk
    have hb := fireAll_below (fires.take k) h
      (by
        rw [hempty, List.length_take]
        simp only [List.length_nil, Nat.zero_add]
        omega)
      (fun f hf => hwithin f (List.mem_of_mem_take hf))
    rw [hb, hempty]
    simp
  · rcases List.eq_nil_or_concat fires with hnil | ⟨front, last, hcat⟩
    · rw [hnil] at hlen
      exact absurd hlen (by decide)
    · rw [List.concat_eq_append] at hcat
      subst hcat
      have hfront : front.length + 1 = batchSize := by
        simpa using hlen
      have hb := fireAll_below front h
        (by
          rw [hempty]
          simp only [List.length_nil, Nat.zero_add]
          omega)
        (fun f hf => hwithin f (List.mem_append_left _ hf))
      have hstep : fireAll h (front ++ [last]) =
          (Fire (fireAll h front) last.1 last.2.1 last.2.2).1 := by
        simp [fireAll, List.foldl_append]
      rw [hstep, hb, hempty]
      obtain ⟨h1, _, ok, rest, h3⟩ := Fire_go_spec
        { h with messages := [] ++ front.map (fun f => Fire.message h.extra f.1) }
        last.1 last.2.1 last.2.2
        (Or.inl (by
          simp only [List.nil_append, List.length_map]
          omega))
      refine ⟨h1, ok, rest, ?_⟩
      rw [h3]
      simp

/-- C4 at a concrete input: one hundred records fired into the empty sink at clock
reading 1. -/
theorem Fire_fills_batch_witness :
    (fireAll demoHook (List.replicate 100 (demoEntry, 1, 1))).messages = [] ∧
      (fireAll demoHook ((List.replicate 100 (demoEntry, 1, 1)).take 99)).store.puts = [] :=
  have hthm := Fire_fills_batch demoHook (List.replicate 100 (demoEntry, 1, 1)) rfl
    (by simp [batchSize])
    (by
      intro f hf
      rw [List.eq_of_mem_replicate hf]
      decide)
  ⟨hthm.2.1, (hthm.1 99 (by decide)).2⟩

/-- C9 (amended). The record that `Fire` appends always has a "message" field and a "level"
field. The value of "message" is the message of the entry whenever neither the extra fields
of the sink nor the data of the entry have a field of that name, and likewise the value of
"level" is the decimal rendering of `logrusToSyslog` of the level of the entry (Panic 0,
Fatal 2, Error 3, Warn 4, Info 6, Debug 7, Trace 8, any other level -1). The record is the
last of the buffer, or of the batch that `Fire` puts. -/
theorem Fire_message_fields (h : LogStoreHook) (e : Entry) :
    (mapGet (Fire.message h.extra e).Contents keyMessage).isSome = true ∧
      (mapGet (Fire.message h.extra e).Contents keyLevel).isSome = true ∧
      (keyMessage ∉ h.extra.map Prod.fst → keyMessage ∉ e.Data.map Prod.fst →
        mapGet (Fire.message h.extra e).Contents keyMessage = some e.Message) ∧
      (keyLevel ∉ h.extra.map Prod.fst → keyLevel ∉ e.Data.map Prod.fst →
        mapGet (Fire.message h.extra e).Contents keyLevel =
          some (Itoa (logrusToSyslog e.Level))) ∧
      (Itoa (logrusToSyslog logrus.PanicLevel) = "0" ∧
        Itoa (logrusToSyslog logrus.FatalLevel) = "2" ∧
        Itoa (logrusToSyslog logrus.ErrorLevel) = "3" ∧
        Itoa (logrusToSyslog logrus.WarnLevel) = "4" ∧
        Itoa (logrusToSyslog logrus.InfoLevel) = "6" ∧
        Itoa (logrusToSyslog logrus.DebugLevel) = "7" ∧
        Itoa (logrusToSyslog logrus.TraceLevel) = "8" ∧
        ∀ level, logrus.TraceLevel < level → Itoa (logrusToSyslog level) = "-1") ∧
      ∀ tSince tNow,
        (Fire h e tSince tNow).1.messages = h.messages ++ [Fire.message h.extra e] ∨
        ∃ ok rest,
          (Fire h e tSince tNow).1.store.puts =
            h.store.puts ++
              ({ Topic := h.topic, Source := h.source,
                 Logs := (h.messages ++ [Fire.message h.extra e]).map Flush.toLog },
                ok) :: rest := by
  have hm : mapGet (mapSet (mapSet ([] : List (String × String)) keyMessage e.Message)
      keyLevel (Itoa (logrusToSyslog e.Level))) keyMessage = some e.Message := by
    rw [mapGet_mapSet_other _ _ _ _ (by decide), mapGet_mapSet_same]
  have hl : mapGet (mapSet (mapSet ([] : List (String × String)) keyMessage e.Message)
      keyLevel (Itoa (logrusToSyslog e.Level))) keyLevel =
      some (Itoa (logrusToSyslog e.Level)) := mapGet_mapSet_same _ _ _
  refine ⟨?_, ?_, ?_, ?_, ?_, ?_⟩
  · exact mapGet_foldl_isSome _ _ _ (mapGet_foldl_isSome _ _ _ (by rw [hm]; rfl))
  · exact mapGet_foldl_isSome _ _ _ (mapGet_foldl_isSome _ _ _ (by rw [hl]; rfl))
  · intro hx hd
    show mapGet (List.foldl _ (List.foldl _ _ h.extra) e.Data) keyMessage = _
    rw [mapGet_foldl_absent _ _ _ hd, mapGet_foldl_absent _ _ _ hx, hm]
  · intro hx hd
    show mapGet (List.foldl _ (List.foldl _ _ h.extra) e.Data) keyLevel = _
    rw [mapGet_foldl_absent _ _ _ hd, mapGet_foldl_absent _ _ _ hx, hl]
  · refine ⟨by decide, by decide, by decide, by decide, by decide, by decide, by decide, ?_⟩
    intro level hlevel
    have hv : logrusToSyslog level = -1 := by
      unfold logrus.TraceLevel at hlevel
      unfold logrusToSyslog logrus.PanicLevel logrus.FatalLevel logrus.ErrorLevel
        logrus.WarnLevel logrus.InfoLevel logrus.DebugLevel logrus.TraceLevel
      split_ifs
      all_goals first | rfl | (exfalso; subst_vars; exact absurd hlevel (by decide))
    rw [hv]
    decide
  · intro tSince tNow
    by_cases hc : batchSize ≤ h.messages.length + 1 ∨ flushInterval ≤ tSince - h.flushTime
    · exact Or.inr (Fire_go_spec h e tSince tNow hc).2.2
    · rw [Fire_skip_spec h e tSince tNow hc]
      exact Or.inl rfl

/-- C9 at concrete inputs: a plain entry, whose record carries its message and level. -/
theorem Fire_message_fields_witness :
    mapGet (Fire.message demoHook.extra demoEntry).Contents keyMessage = some "served" ∧
      mapGet (Fire.message demoHook.extra demoEntry).Contents keyLevel = some "6" :=
  have hthm := Fire_message_fields demoHook demoEntry
  ⟨hthm.2.2.1 (by decide) (by decide), hthm.2.2.2.1 (by decide) (by decide)⟩

/-- C9, as stated, fails: a data field named "message" replaces the message of the entry in
the record that `Fire` appends. -/
theorem Fire_message_shadowed_counterexample :
    clashEntry.Message = "served" ∧
      (Fire demoHook clashEntry 1 2).1.messages =
        [{ Time := 1700000000, Contents := [("message", "shadow"), ("level", "6")] }] ∧
      mapGet (Fire.message demoHook.extra clashEntry).Contents keyMessage = some "shadow" := by
  decide

/-- After any `Flush` the buffer is shorter than the batch size. -/
theorem Flush_length_lt (h : LogStoreHook) (force : Bool) (tSince tNow : Int) :
    (Flush h force tSince tNow).1.messages.length < batchSize := by
  by_cases hc : h.messages = [] ∨
      (force = false ∧ h.messages.length < batchSize ∧ tSince - h.flushTime < flushInterval)
  · rw [Flush_skip h force tSince tNow hc]
    rcases hc with h0 | ⟨_, hl, _⟩
    · rw [h0]
      exact batchSize_pos
    · exact hl
  · rw [(Flush_go_spec h force tSince tNow hc).1]
    exact batchSize_pos

theorem step_length_lt (s : Sys) (op : Op) (hs : s.hook.messages.length < batchSize) :
    (s.step op).hook.messages.length < batchSize := by
  cases op with
  | fire e latency =>
    show (Fire s.hook e s.clock (s.clock + latency)).1.messages.length < batchSize
    rw [Fire_eq]
    exact Flush_length_lt _ _ _ _
  | flush force latency => exact Flush_length_lt _ _ _ _
  | wait d => exact hs

theorem run_length_lt (ops : List Op) (s : Sys) (hs : s.hook.messages.length < batchSize) :
    (s.run ops).hook.messages.length < batchSize := by
  induction ops generalizing s with
  | nil => exact hs
  | cons op rest ih => exact ih (s.step op) (step_length_lt s op hs)

/-- C10. From a freshly constructed sink, after any finite sequence of `Fire` calls, `Flush`
calls and waits, under any outcomes of the remote puts: whenever the next operation evaluates
the flush guard, the buffer length it reads is at most the batch size, and when the next
operation is a `Fire` the buffer is shorter than the batch size when it returns. -/
theorem buffer_bounded (client : Client) (c : LogStoreConfig) (now : Int) (h : LogStoreHook)
    (hnew : NewLogStoreHook client c now = Except.ok h) (clock : Int) (ops : List Op)
    (op : Op) :
    (∀ n, Sys.decisionLen (Sys.run { hook := h, clock := clock } ops) op = some n →
        n ≤ batchSize) ∧
      (∀ e latency, op = Op.fire e latency →
        (Sys.step (Sys.run { hook := h, clock := clock } ops) op).hook.messages.length <
          batchSize) := by
  have hfresh : h.messages = [] := by
    unfold NewLogStoreHook at hnew
    split at hnew
    · exact absurd hnew (by simp)
    · split at hnew
      · exact absurd hnew (by simp)
      · simp only [Except.ok.injEq] at hnew
        rw [← hnew]
  have hinv := run_length_lt ops { hook := h, clock := clock }
    (by
      show h.messages.length < batchSize
      rw [hfresh]
      exact batchSize_pos)
  refine ⟨?_, ?_⟩
  · intro n hn
    cases op with
    | fire e latency =>
      simp only [Sys.decisionLen, Option.some.injEq] at hn
      omega
    | flush force latency =>
      simp only [Sys.decisionLen, Option.some.injEq] at hn
      omega
    | wait d => simp [Sys.decisionLen] at hn
  · intro e latency _
    exact step_length_lt _ op hinv

/-- C10 at a concrete input: a fresh sink, one record fired, then a second `Fire`. -/
theorem buffer_bounded_witness :
    NewLogStoreHook demoClient demoConfig 0 = Except.ok demoHook ∧
      (Sys.step (Sys.run { hook := demoHook, clock := 0 } [Op.fire demoEntry 1])
        (Op.fire demoEntry 1)).hook.messages.length < batchSize :=
  ⟨rfl, (buffer_bounded demoClient demoConfig 0 demoHook rfl 0 [Op.fire demoEntry 1]
    (Op.fire demoEntry 1)).2 demoEntry 1 rfl⟩

/-- C7 (amended). After exactly one record is fired into a sink with an empty buffer within
the flush interval of the last flush, and more than the flush interval then passes with no
further `Fire` or `Flush` call, no flush has occurred and the record is still the only one
in the buffer (the sink has no timer). The next `Flush(false)` call then performs exactly
one flush, whose batch put contains exactly that record. -/
theorem wait_does_not_flush (h : LogStoreHook) (clock : Int) (e : Entry) (latency d : Nat)
    (hempty : h.messages = []) (hmono : h.flushTime ≤ clock)
    (hwithin : clock - h.flushTime < flushInterval) (hd : flushInterval < d) :
    (Sys.run { hook := h, clock := clock } [Op.fire e latency, Op.wait d]).hook.store.puts =
        h.store.puts ∧
      (Sys.run { hook := h, clock := clock } [Op.fire e latency, Op.wait d]).hook.messages =
        [Fire.message h.extra e] ∧
      (Sys.run { hook := h, clock := clock } [Op.fire e latency, Op.wait d]).hook.stdlog =
        h.stdlog ∧
      ∀ latency2,
        (Sys.run { hook := h, clock := clock }
          [Op.fire e latency, Op.wait d, Op.flush false latency2]).hook.messages = [] ∧
        ∃ ok rest,
          (Sys.run { hook := h, clock := clock }
            [Op.fire e latency, Op.wait d, Op.flush false latency2]).hook.store.puts =
            h.store.puts ++
              ({ Topic := h.topic, Source := h.source,
                 Logs := [Flush.toLog (Fire.message h.extra e)] }, ok) :: rest ∧
          rest.map Prod.fst =
            (if ok = true then []
             else [Flush.single h.topic h.source (Flush.toLog (Fire.message h.extra e))]) ∧
          (Sys.run { hook := h, clock := clock }
            [Op.fire e latency, Op.wait d, Op.flush false latency2]).hook.stdlog =
            h.stdlog ++ List.replicate (rest.countP (fun p => !p.2))
              (LogLine.discard (error.other "PutLogs")) ++ [LogLine.flushed 1 h.store.Name] := by
  have hfire : Fire h e clock (clock + latency) =
      ({ h with messages := h.messages ++ [Fire.message h.extra e] }, none) := by
    apply Fire_skip_spec
    simp only [not_or, not_le, hempty, List.length_nil]
    exact ⟨by decide, hwithin⟩
  have hrun : Sys.run { hook := h, clock := clock } [Op.fire e latency, Op.wait d] =
      { hook := { h with messages := [Fire.message h.extra e] },
        clock := clock + latency + d } := by
    simp [Sys.run, Sys.step, hfire, hempty]
  have hrun3 : ∀ latency2, Sys.run { hook := h, clock := clock }
      [Op.fire e latency, Op.wait d, Op.flush false latency2] =
      Sys.step (Sys.run { hook := h, clock := clock } [Op.fire e latency, Op.wait d])
        (Op.flush false latency2) := by
    intro latency2
    simp [Sys.run]
  refine ⟨by rw [hrun], by rw [hrun], by rw [hrun], ?_⟩
  intro latency2
  rw [hrun3, hrun]
  have hgo : ¬ (({ h with messages := [Fire.message h.extra e] } : LogStoreHook).messages = [] ∨
      ((false : Bool) = false ∧
        ({ h with messages := [Fire.message h.extra e] } : LogStoreHook).messages.length <
          batchSize ∧
        (clock + latency + d) -
          ({ h with messages := [Fire.message h.extra e] } : LogStoreHook).flushTime <
            flushInterval)) := by
    simp only [List.cons_ne_self, false_or, true_and, not_and, not_lt, reduceCtorEq]
    intro _
    omega
  have hspec := Flush_go_spec { h with messages := [Fire.message h.extra e] } false
    (clock + latency + d) (clock + latency + d + latency2) hgo
  have hflush := Flush_go { h with messages := [Fire.message h.extra e] } false
    (clock + latency + d) (clock + latency + d + latency2) hgo
  obtain ⟨_, _, hname, hlog⟩ := send_spec { h with messages := [Fire.message h.extra e] }
  refine ⟨hspec.1, !h.store.fails h.store.puts.length, _, hspec.2.2.2, ?_, ?_⟩
  · by_cases hf : h.store.fails h.store.puts.length = true
    · simp [hf, eachPuts_requests]
    · simp [hf]
  · show (Flush _ _ _ _).1.stdlog = _
    rw [hflush]
    simp only [hname, hlog]
    by_cases hf : h.store.fails h.store.puts.length = true
    · simp [hf]
    · simp [hf]

/-- C7 at a concrete input: one record fired at clock reading 1, then a wait of more than
three seconds; a later `Flush(false)` puts the record. -/
theorem wait_does_not_flush_witness :
    demoHook.messages = [] ∧
      (Sys.run { hook := demoHook, clock := 1 }
        [Op.fire demoEntry 0, Op.wait 3000000001]).hook.store.puts = [] ∧
      (Sys.run { hook := demoHook, clock := 1 }
        [Op.fire demoEntry 0, Op.wait 3000000001, Op.flush false 0]).hook.messages = [] :=
  have hthm := wait_does_not_flush demoHook 1 demoEntry 0 3000000001 rfl (by decide)
    (by decide) (by decide)
  ⟨rfl, hthm.1, (hthm.2.2.2 0).1⟩

/-- C7, as stated, fails: one record is fired into the empty sink within the flush interval
and more than the flush interval passes with no further call; no flush has occurred (no
put, no flush line in the log) and the record is still in the buffer. -/
theorem wait_does_not_flush_counterexample :
    flushInterval < 3000000001 ∧
      (Sys.run { hook := demoHook, clock := 1 }
        [Op.fire demoEntry 0, Op.wait 3000000001]).hook.store.puts = [] ∧
      (Sys.run { hook := demoHook, clock := 1 }
        [Op.fire demoEntry 0, Op.wait 3000000001]).hook.stdlog = [] ∧
      (Sys.run { hook := demoHook, clock := 1 }
        [Op.fire demoEntry 0, Op.wait 3000000001]).hook.messages =
        [{ Time := 1700000000, Contents := [("message", "served"), ("level", "6")] }] := by
  decide

end ext

/-! ## Theorems: the shutdown coordinator (`pkg/ext/shutdown.go`) -/

namespace ext

theorem OnShutdown_foldl {α : Type} (hs : List (α → α)) (p : Process α) :
    (hs.foldl OnShutdown p).hooks = p.hooks ++ hs ∧
      (hs.foldl OnShutdown p).chQuit = p.chQuit ∧
      (hs.foldl OnShutdown p).trace = p.trace ∧
      (hs.foldl OnShutdown p).world = p.world := by
  induction hs generalizing p with
  | nil => simp
  | cons hook rest ih =>
    obtain ⟨h1, h2, h3, h4⟩ := ih (OnShutdown p hook)
    simp only [List.foldl_cons]
    refine ⟨?_, h2, h3, h4⟩
    rw [h1]
    simp [OnShutdown]

/-- The loop of the signal goroutine started at index `k - 1` runs the first `k` hooks,
last first, once each. -/
theorem loop_spec {α : Type} (hooks : List (α → α)) (k : Nat) (hk : k ≤ hooks.length)
    (world : α) (trace : List Event) :
    init.loop hooks k (world, trace) =
      ((hooks.take k).foldr (fun hook w => hook w) world,
        trace ++ (List.range k).reverse.map Event.call) := by
  induction k generalizing world trace with
  | zero => simp [init.loop]
  | succ k ih =>
    have hlt : k < hooks.length := hk
    have hget : hooks[k]? = some hooks[k] := List.getElem?_eq_getElem hlt
    have htake : hooks.take (k + 1) = hooks.take k ++ [hooks[k]] := by
      rw [List.take_succ, hget]
      rfl
    rw [init.loop, hget]
    simp only
    rw [ih (Nat.le_of_lt hlt), htake, List.foldr_append, List.range_succ]
    simp

/-- The whole shutdown sequence: every hook, last registered first, then the close. -/
theorem signal_spec {α : Type} (p : Process α) :
    (init.signal p).world = p.hooks.foldr (fun hook w => hook w) p.world ∧
      (init.signal p).trace =
        p.trace ++ (List.range p.hooks.length).reverse.map Event.call ++ [Event.close] ∧
      (init.signal p).chQuit = p.chQuit + 1 ∧
      (init.signal p).hooks = p.hooks := by
  have hl := loop_spec p.hooks p.hooks.length (Nat.le_refl _) p.world p.trace
  rw [List.take_length] at hl
  refine ⟨?_, ?_, ?_, ?_⟩ <;> simp [init.signal, hl]

/-- C1. For hooks h1..hn registered with `OnShutdown` in that order before the signal, the
shutdown sequence calls hn, ..., h1 in that order, each once, and then closes `chQuit`, once:
its trace is the calls of the indices n-1, ..., 0 followed by the close, the state the hooks
act on is h1 (h2 (... (hn world))), and a waiter blocked before the signal is released after
it. With hooks that append their name to a shared log, the log reads hn, ..., h1. -/
theorem shutdown_runs_hooks_in_reverse {α ι : Type} (world : α) (hs : List (α → α))
    (names : List ι) :
    (hs.foldl OnShutdown (Process.start world)).hooks = hs ∧
      (init.signal (hs.foldl OnShutdown (Process.start world))).trace =
        (List.range hs.length).reverse.map Event.call ++ [Event.close] ∧
      (init.signal (hs.foldl OnShutdown (Process.start world))).world =
        hs.foldr (fun hook w => hook w) world ∧
      (init.signal (hs.foldl OnShutdown (Process.start world))).chQuit = 1 ∧
      WaitShutdown (hs.foldl OnShutdown (Process.start world)) = none ∧
      WaitShutdown (init.signal (hs.foldl OnShutdown (Process.start world))) = some () ∧
      (init.signal ((names.map (fun name log => log ++ [name])).foldl OnShutdown
        (Process.start ([] : List ι)))).world = names.reverse := by
  obtain ⟨h1, h2, h3, h4⟩ := OnShutdown_foldl hs (Process.start world)
  obtain ⟨g1, g2, g3, _⟩ := signal_spec (hs.foldl OnShutdown (Process.start world))
  have hhooks : (hs.foldl OnShutdown (Process.start world)).hooks = hs := by
    rw [h1]
    simp [Process.start]
  have hlog : ∀ (l : List ι) (log : List ι),
      (l.map (fun name log => log ++ [name])).foldr (fun hook w => hook w) log =
        log ++ l.reverse := by
    intro l
    induction l with
    | nil => simp
    | cons name rest ih =>
      intro log
      simp only [List.map_cons, List.foldr_cons, ih, List.reverse_cons, List.append_assoc]
  refine ⟨hhooks, ?_, ?_, ?_, ?_, ?_, ?_⟩
  · rw [g2, h3, hhooks]
    simp [Process.start]
  · rw [g1, h4, hhooks]
    rfl
  · rw [g3, h2]
    rfl
  · unfold WaitShutdown
    rw [h2]
    rfl
  · simp [WaitShutdown, g3]
  · obtain ⟨k1, _, _, k4⟩ := OnShutdown_foldl (names.map (fun name log => log ++ [name]))
      (Process.start ([] : List ι))
    rw [(signal_spec _).1, k4, k1]
    simp only [Process.start, List.nil_append]
    rw [hlog]
    simp

end ext

/-! ## Theorems: the orchestrator (`pkg/endpoint/endpoint.go`) -/

namespace endpoint

/-- A duplicate-free list of numbers below `n` has at most `n` elements. -/
theorem nodup_length_le (l : List Nat) (n : Nat) (hn : l.Nodup) (hb : ∀ x ∈ l, x < n) :
    l.length ≤ n := by
  have hsub : l.toFinset ⊆ Finset.range n := by
    intro x hx
    rw [List.mem_toFinset] at hx
    exact Finset.mem_range.mpr (hb x hx)
  calc l.length = l.toFinset.card := (List.toFinset_card_of_nodup hn).symm
    _ ≤ (Finset.range n).card := Finset.card_le_card hsub
    _ = n := Finset.card_range n

/-- A duplicate-free list of `n` numbers below `n` holds every number below `n`. -/
theorem nodup_full (l : List Nat) (n : Nat) (hn : l.Nodup) (hb : ∀ x ∈ l, x < n)
    (hlen : l.length = n) (i : Nat) (hi : i < n) : i ∈ l := by
  have hsub : l.toFinset ⊆ Finset.range n := by
    intro x hx
    rw [List.mem_toFinset] at hx
    exact Finset.mem_range.mpr (hb x hx)
  have hcard : (Finset.range n).card ≤ l.toFinset.card := by
    rw [Finset.card_range, List.toFinset_card_of_nodup hn, hlen]
  have heq := Finset.eq_of_subset_of_card_le hsub hcard
  have hmem : i ∈ l.toFinset := by
    rw [heq]
    exact Finset.mem_range.mpr hi
  exact List.mem_toFinset.mp hmem

/-- A list that holds every number below `n` has at least `n` elements. -/
theorem full_length_ge (l : List Nat) (n : Nat) (hall : ∀ i, i < n → i ∈ l) : n ≤ l.length := by
  have hsub : Finset.range n ⊆ l.toFinset := by
    intro x hx
    exact List.mem_toFinset.mpr (hall x (Finset.mem_range.mp hx))
  calc n = (Finset.range n).card := (Finset.card_range n).symm
    _ ≤ l.toFinset.card := Finset.card_le_card hsub
    _ ≤ l.length := List.toFinset_card_le l

theorem firstError_append (l : List (Option error)) (r : Option error) :
    firstError (l ++ [r]) =
      (match firstError l with
        | some e => some e
        | none => r) := by
  induction l with
  | nil => cases r <;> rfl
  | cons x rest ih =>
    cases x with
    | none => simpa [firstError] using ih
    | some e => simp [firstError]

theorem Inv_start (endpoints : List Endpoint) (p0 : ext.Process (List Action)) :
    Run.Inv endpoints p0 (Run.start p0) := by
  refine ⟨Nat.zero_le _, ?_, rfl, rfl, rfl, List.nodup_nil, ?_, rfl, rfl⟩
  · simp [Run.start]
  · intro i hi
    simp [Run.start] at hi

/-- Every scheduling step keeps the invariant. -/
theorem Inv_step (endpoints : List Endpoint) (p0 : ext.Process (List Action)) (s t : State)
    (st : Step) (hinv : Run.Inv endpoints p0 s) (hstep : Run.step endpoints s st = some t) :
    Run.Inv endpoints p0 t := by
  obtain ⟨hle, hhooks, hworld, htrace, hquit, hnodup, hbound, hwg, herr⟩ := hinv
  cases st with
  | main =>
    simp only [Run.step] at hstep
    cases hget : endpoints[s.launched]? with
    | none =>
      rw [hget] at hstep
      simp only [Option.some.injEq] at hstep
      subst hstep
      exact ⟨hle, hhooks, hworld, htrace, hquit, hnodup, hbound, hwg, herr⟩
    | some e =>
      rw [hget] at hstep
      simp only [Option.some.injEq] at hstep
      subst hstep
      have hlt : s.launched < endpoints.length := by
        by_contra hge
        rw [List.getElem?_eq_none (Nat.le_of_not_lt hge)] at hget
        exact absurd hget (by simp)
      refine ⟨hlt, ?_, hworld, htrace, hquit, hnodup, ?_, ?_, herr⟩
      · show (ext.OnShutdown s.proc (Run.hook e)).hooks = _
        rw [List.take_succ, hget]
        simp [ext.OnShutdown, hhooks]
      · intro i hi
        exact Nat.lt_succ_of_lt (hbound i hi)
      · show s.group.wg + 1 + s.returned.length = s.launched + 1
        omega
  | ret i =>
    simp only [Run.step] at hstep
    by_cases hc : i < s.launched ∧ i ∉ s.returned
    · rw [if_pos hc] at hstep
      cases hget : endpoints[i]? with
      | none =>
        rw [hget] at hstep
        exact absurd hstep (by simp)
      | some e =>
        rw [hget] at hstep
        simp only [Option.some.injEq] at hstep
        subst hstep
        have hnodup2 : (s.returned ++ [i]).Nodup := by
          rw [List.nodup_append]
          refine ⟨hnodup, List.nodup_singleton i, ?_⟩
          intro a ha hb
          rw [List.mem_singleton] at hb
          subst hb
          exact hc.2 ha
        have hbound2 : ∀ x ∈ s.returned ++ [i], x < s.launched := by
          intro x hx
          rcases List.mem_append.mp hx with h1 | h1
          · exact hbound x h1
          · rw [List.mem_singleton] at h1
            rw [h1]
            exact hc.1
        have hlen := nodup_length_le _ _ hnodup2 hbound2
        simp only [List.length_append, List.length_singleton] at hlen
        refine ⟨hle, hhooks, hworld, htrace, hquit, hnodup2, hbound2, ?_, ?_⟩
        · show s.group.wg - 1 + (s.returned ++ [i]).length = s.launched
          simp only [List.length_append, List.length_singleton]
          omega
        · show (s.group.done e.run).err = firstError (Run.outcomes endpoints _)
          simp only [Run.outcomes, List.map_append, List.map_singleton, hget, Option.bind_some]
          rw [firstError_append]
          simp only [errgroup.Group.done, herr, Run.outcomes]
          rfl
    · rw [if_neg hc] at hstep
      exact absurd hstep (by simp)

theorem Inv_exec (endpoints : List Endpoint) (p0 : ext.Process (List Action))
    (sched : List Step) (s t : State) (hinv : Run.Inv endpoints p0 s)
    (hexec : Run.exec endpoints s sched = some t) : Run.Inv endpoints p0 t := by
  induction sched generalizing s with
  | nil =>
    simp only [Run.exec, Option.some.injEq] at hexec
    subst hexec
    exact hinv
  | cons st rest ih =>
    unfold Run.exec at hexec
    cases hstep : Run.step endpoints s st with
    | none =>
      rw [hstep] at hexec
      exact absurd hexec (by simp)
    | some s1 =>
      rw [hstep] at hexec
      exact ih s1 (Inv_step endpoints p0 s s1 st hinv hstep) hexec

theorem exec_append (endpoints : List Endpoint) (a b : List Step) (s : State) :
    Run.exec endpoints s (a ++ b) =
      (Run.exec endpoints s a).bind (fun s1 => Run.exec endpoints s1 b) := by
  induction a generalizing s with
  | nil => rfl
  | cons st rest ih =>
    simp only [List.cons_append, Run.exec]
    cases Run.step endpoints s st with
    | none => rfl
    | some s1 => exact ih s1

/-- The caller can always go through the rest of its loop. -/
theorem exec_mains (endpoints : List Endpoint) (k : Nat) (s : State)
    (hk : s.launched + k ≤ endpoints.length) :
    ∃ t, Run.exec endpoints s (List.replicate k Step.main) = some t ∧
      t.launched = s.launched + k ∧ t.returned = s.returned := by
  induction k generalizing s with
  | zero => exact ⟨s, rfl, rfl, rfl⟩
  | succ k ih =>
    have hlt : s.launched < endpoints.length := by omega
    have hget : endpoints[s.launched]? = some endpoints[s.launched] :=
      List.getElem?_eq_getElem hlt
    obtain ⟨t, h1, h2, h3⟩ := ih
      { s with
        launched := s.launched + 1
        group := s.group.Go
        proc := shutdown.AddHook s.proc (Run.hook endpoints[s.launched]) }
      (by
        show s.launched + 1 + k ≤ endpoints.length
        omega)
    refine ⟨t, ?_, ?_, h3⟩
    · simp only [List.replicate_succ, Run.exec, Run.step, hget]
      exact h1
    · rw [h2]
      show s.launched + 1 + k = s.launched + (k + 1)
      omega

/-- Once every task is started, the tasks can return in any order. -/
theorem exec_rets (endpoints : List Endpoint) (order : List Nat) (s : State)
    (hall : s.launched = endpoints.length) (hbound : ∀ i ∈ order, i < endpoints.length)
    (hnodup : order.Nodup) (hfresh : ∀ i ∈ order, i ∉ s.returned) :
    ∃ t, Run.exec endpoints s (order.map Step.ret) = some t ∧
      t.launched = endpoints.length ∧ t.returned = s.returned ++ order := by
  induction order generalizing s with
  | nil => exact ⟨s, rfl, hall, by simp⟩
  | cons i rest ih =>
    have hi : i < endpoints.length := hbound i (List.mem_cons_self _ _)
    have hget : endpoints[i]? = some endpoints[i] := List.getElem?_eq_getElem hi
    have hcond : i < s.launched ∧ i ∉ s.returned :=
      ⟨by rw [hall]; exact hi, hfresh i (List.mem_cons_self _ _)⟩
    rw [List.nodup_cons] at hnodup
    obtain ⟨t, h1, h2, h3⟩ := ih
      { s with group := s.group.done endpoints[i].run, returned := s.returned ++ [i] }
      hall
      (fun j hj => hbound j (List.mem_cons_of_mem _ hj))
      hnodup.2
      (by
        intro j hj hmem
        rcases List.mem_append.mp hmem with h1 | h1
        · exact hfresh j (List.mem_cons_of_mem _ hj) h1
        · rw [List.mem_singleton] at h1
          subst h1
          exact hnodup.1 hj)
    refine ⟨t, ?_, h2, ?_⟩
    · simp only [List.map_cons, Run.exec, Run.step, if_pos hcond, hget]
      exact h1
    · rw [h3]
      simp

/-- A result that is the first error of results that are all nil or benign is not reported
by `main`. -/
theorem firstError_benign (l : List (Option error))
    (hl : ∀ r ∈ l, r = none ∨ r = some error.ErrServerClosed) :
    main.reports (firstError l) = false := by
  induction l with
  | nil => rfl
  | cons x rest ih =>
    rcases hl x (List.mem_cons_self _ _) with hx | hx
    · subst hx
      exact ih (fun r hr => hl r (List.mem_cons_of_mem _ hr))
    · subst hx
      rfl

/-- The scheduling of `Run` does not look at what `Stop` returns: replacing the endpoints by
ones with the same `Run` results leaves counter, stored error and return order alike. -/
theorem step_sim (endpoints : List Endpoint) (g : Endpoint → Endpoint)
    (hrun : ∀ e, (g e).run = e.run) (s s2 t : State) (st : Step)
    (h1 : s2.launched = s.launched) (h2 : s2.group = s.group) (h3 : s2.returned = s.returned)
    (hstep : Run.step endpoints s st = some t) :
    ∃ t2, Run.step (endpoints.map g) s2 st = some t2 ∧
      t2.launched = t.launched ∧ t2.group = t.group ∧ t2.returned = t.returned := by
  cases st with
  | main =>
    cases hget : endpoints[s.launched]? with
    | none =>
      have hget2 : (endpoints.map g)[s2.launched]? = none := by
        rw [List.getElem?_map, h1, hget]
        rfl
      simp only [Run.step, hget, Option.some.injEq] at hstep
      subst hstep
      simp only [Run.step, hget2]
      exact ⟨s2, rfl, h1, h2, h3⟩
    | some e =>
      have hget2 : (endpoints.map g)[s2.launched]? = some (g e) := by
        rw [List.getElem?_map, h1, hget]
        rfl
      simp only [Run.step, hget, Option.some.injEq] at hstep
      subst hstep
      simp only [Run.step, hget2]
      exact ⟨_, rfl, by simp [h1], by simp [h2], h3⟩
  | ret i =>
    by_cases hc : i < s.launched ∧ i ∉ s.returned
    · cases hget : endpoints[i]? with
      | none =>
        simp only [Run.step, if_pos hc, hget] at hstep
        exact absurd hstep (by simp)
      | some e =>
        have hget2 : (endpoints.map g)[i]? = some (g e) := by
          rw [List.getElem?_map, hget]
          rfl
        have hc2 : i < s2.launched ∧ i ∉ s2.returned := by
          rw [h1, h3]
          exact hc
        simp only [Run.step, if_pos hc, hget, Option.some.injEq] at hstep
        subst hstep
        simp only [Run.step, if_pos hc2, hget2]
        exact ⟨_, rfl, h1, by simp [h2, hrun], by simp [h3]⟩
    · simp only [Run.step, if_neg hc] at hstep
      exact absurd hstep (by simp)

theorem exec_sim (endpoints : List Endpoint) (g : Endpoint → Endpoint)
    (hrun : ∀ e, (g e).run = e.run) (sched : List Step) (s s2 t : State)
    (h1 : s2.launched = s.launched) (h2 : s2.group = s.group) (h3 : s2.returned = s.returned)
    (hexec : Run.exec endpoints s sched = some t) :
    ∃ t2, Run.exec (endpoints.map g) s2 sched = some t2 ∧
      t2.launched = t.launched ∧ t2.group = t.group ∧ t2.returned = t.returned := by
  induction sched generalizing s s2 with
  | nil =>
    simp only [Run.exec, Option.some.injEq] at hexec
    subst hexec
    exact ⟨s2, rfl, h1, h2, h3⟩
  | cons st rest ih =>
    unfold Run.exec at hexec
    cases hstep : Run.step endpoints s st with
    | none =>
      rw [hstep] at hexec
      exact absurd hexec (by simp)
    | some s1 =>
      rw [hstep] at hexec
      obtain ⟨u, hu, k1, k2, k3⟩ := step_sim endpoints g hrun s s2 s1 st h1 h2 h3 hstep
      obtain ⟨t2, ht2, r1, r2, r3⟩ := ih s1 u k1 k2 k3 hexec
      refine ⟨t2, ?_, r1, r2, r3⟩
      unfold Run.exec
      rw [hu]
      exact ht2

theorem stops_append (a b : List Action) : stops (a ++ b) = stops a ++ stops b := by
  induction a with
  | nil => rfl
  | cons x rest ih => cases x <;> simp [stops, ih]

/-- A stop hook calls `Stop` on its endpoint once, whatever `Stop` returns. -/
theorem stops_hook (e : Endpoint) (world : List Action) :
    stops (Run.hook e world) = stops world ++ [e] := by
  unfold Run.hook
  cases e.stop <;> simp [stops_append, stops]

theorem stops_foldr (es : List Endpoint) (world : List Action) :
    stops ((es.map Run.hook).foldr (fun hook w => hook w) world) =
      stops world ++ es.reverse := by
  induction es with
  | nil => simp
  | cons e rest ih =>
    simp only [List.map_cons, List.foldr_cons, stops_hook, ih, List.reverse_cons,
      List.append_assoc]

/-- C2 (amended). For every list of adapters and every schedule, `endpoint.Run` returns only
after all the `Run` calls have returned, and once they have it does return; its result is the
first non-nil error in the order of return, the benign `http.ErrServerClosed` included (nil
when every adapter returns nil). When every adapter returns nil or the benign error the
result is one of these two, which `main` does not report. Every order of return of the
adapters is the order of some schedule. -/
theorem Run_returns_first_error (endpoints : List Endpoint)
    (proc : ext.Process (List Action)) :
    (∀ sched s, Run.exec endpoints (Run.start proc) sched = some s →
      (∀ r, Run.result endpoints s = some r →
        (∀ i, i < endpoints.length → i ∈ s.returned) ∧
          r = firstError (Run.outcomes endpoints s)) ∧
      ((s.launched = endpoints.length ∧ ∀ i, i < endpoints.length → i ∈ s.returned) →
        Run.result endpoints s = some (firstError (Run.outcomes endpoints s))) ∧
      ((∀ e ∈ endpoints, e.run = none ∨ e.run = some error.ErrServerClosed) →
        ∀ r, Run.result endpoints s = some r → main.reports r = false)) ∧
    (∀ order : List Nat, order.Perm (List.range endpoints.length) →
      ∃ s, Run.exec endpoints (Run.start proc)
          (List.replicate endpoints.length Step.main ++ order.map Step.ret) = some s ∧
        s.returned = order ∧
        Run.result endpoints s =
          some (firstError (order.map (fun i => (endpoints[i]?).bind Endpoint.run)))) := by
  have hres : ∀ sched s, Run.exec endpoints (Run.start proc) sched = some s →
      ∀ r, Run.result endpoints s = some r →
        (∀ i, i < endpoints.length → i ∈ s.returned) ∧
          r = firstError (Run.outcomes endpoints s) := by
    intro sched s hexec r hr
    obtain ⟨_, _, _, _, _, hnodup, hbound, hwg, herr⟩ :=
      Inv_exec endpoints proc sched _ s (Inv_start endpoints proc) hexec
    unfold Run.result at hr
    by_cases hl : s.launched = endpoints.length
    · rw [if_pos hl] at hr
      unfold errgroup.Group.Wait at hr
      by_cases hw : s.group.wg = 0
      · rw [if_pos hw] at hr
        simp only [Option.some.injEq] at hr
        refine ⟨?_, ?_⟩
        · intro i hi
          exact nodup_full s.returned endpoints.length hnodup
            (fun x hx => by rw [← hl]; exact hbound x hx) (by omega) i hi
        · rw [← hr, herr]
      · rw [if_neg hw] at hr
        exact absurd hr (by simp)
    · rw [if_neg hl] at hr
      exact absurd hr (by simp)
  have hdone : ∀ sched s, Run.exec endpoints (Run.start proc) sched = some s →
      (s.launched = endpoints.length ∧ ∀ i, i < endpoints.length → i ∈ s.returned) →
        Run.result endpoints s = some (firstError (Run.outcomes endpoints s)) := by
    intro sched s hexec hall
    obtain ⟨_, _, _, _, _, _, _, hwg, herr⟩ :=
      Inv_exec endpoints proc sched _ s (Inv_start endpoints proc) hexec
    have hge := full_length_ge s.returned endpoints.length hall.2
    have hw : s.group.wg = 0 := by omega
    unfold Run.result errgroup.Group.Wait
    rw [if_pos hall.1, if_pos hw, herr]
  refine ⟨?_, ?_⟩
  · intro sched s hexec
    refine ⟨hres sched s hexec, hdone sched s hexec, ?_⟩
    intro hbenign r hr
    rw [(hres sched s hexec r hr).2]
    apply firstError_benign
    intro x hx
    simp only [Run.outcomes, List.mem_map] at hx
    obtain ⟨i, _, hi⟩ := hx
    cases hget : endpoints[i]? with
    | none =>
      rw [hget] at hi
      exact Or.inl hi.symm
    | some e =>
      rw [hget] at hi
      have hi2 : e.run = x := hi
      rw [← hi2]
      exact hbenign e (List.getElem?_mem hget)
  · intro order hperm
    obtain ⟨t, ht, hl, hr⟩ := exec_mains endpoints endpoints.length (Run.start proc)
      (by simp [Run.start])
    have hl2 : t.launched = endpoints.length := by
      rw [hl]
      simp [Run.start]
    have hr2 : t.returned = [] := by
      rw [hr]
      rfl
    obtain ⟨u, hu, _, hret⟩ := exec_rets endpoints order t hl2
      (fun i hi => List.mem_range.mp (hperm.subset hi))
      (hperm.nodup_iff.mpr (List.nodup_range _))
      (fun i _ => by rw [hr2]; simp)
    have hexec : Run.exec endpoints (Run.start proc)
        (List.replicate endpoints.length Step.main ++ order.map Step.ret) = some u := by
      rw [exec_append, ht]
      exact hu
    have hord : u.returned = order := by
      rw [hret, hr2]
      rfl
    refine ⟨u, hexec, hord, ?_⟩
    have hfin := hdone _ u hexec ⟨by assumption, fun i hi => by
      rw [hord]
      exact hperm.symm.subset (List.mem_range.mpr hi)⟩
    rw [hfin, Run.outcomes, hord]

/-- C2 at a concrete input: the broken listener returns first, the stopped one second; the
result of `Run` is the error of the broken one, and `main` reports it. -/
theorem Run_returns_first_error_witness :
    ∃ s, Run.exec [closedServer, brokenServer] (Run.start (ext.Process.start []))
        [Step.main, Step.main, Step.ret 1, Step.ret 0] = some s ∧
      s.returned = [1, 0] ∧
      Run.result [closedServer, brokenServer] s =
        some (some (error.other "bind: address already in use")) :=
  (Run_returns_first_error [closedServer, brokenServer] (ext.Process.start [])).2 [1, 0]
    (by decide)

/-- C2, as stated, fails: the stopped listener returns first with the benign error, the
broken one second with a fatal error; `Run` returns the benign error, not the first
non-benign one, and `main` reports nothing. -/
theorem Run_masks_fatal_error_counterexample :
    (Run.exec [closedServer, brokenServer] (Run.start (ext.Process.start []))
        [Step.main, Step.main, Step.ret 0, Step.ret 1]).map
        (fun s => (s.returned, Run.result [closedServer, brokenServer] s,
          firstFatal (Run.outcomes [closedServer, brokenServer] s))) =
      some ([0, 1], some (some error.ErrServerClosed),
        some (error.other "bind: address already in use")) ∧
      main.reports (some error.ErrServerClosed) = false := by
  decide

/-- C3. `endpoint.Run` registers exactly one shutdown hook per adapter, in argument order;
the shutdown sequence then calls `Stop` on the adapters last to first, once each, whatever
the `Stop` calls return, and closes `chQuit`. The result of `Run` is not changed by the
shutdown sequence, and is the one `Run` gives when every `Stop` succeeds. -/
theorem Run_registers_stop_hooks (endpoints : List Endpoint) (world : List Action)
    (sched : List Step) (s : State)
    (hexec : Run.exec endpoints (Run.start (ext.Process.start world)) sched = some s)
    (hdone : s.launched = endpoints.length) :
    s.proc.hooks = endpoints.map Run.hook ∧
      stops (ext.init.signal s.proc).world = stops world ++ endpoints.reverse ∧
      (ext.init.signal s.proc).trace =
        (List.range endpoints.length).reverse.map ext.Event.call ++ [ext.Event.close] ∧
      Run.result endpoints { s with proc := ext.init.signal s.proc } =
        Run.result endpoints s ∧
      ∃ s2, Run.exec (endpoints.map (fun e => { e with stop := none }))
          (Run.start (ext.Process.start world)) sched = some s2 ∧
        Run.result (endpoints.map (fun e => { e with stop := none })) s2 =
          Run.result endpoints s := by
  obtain ⟨_, hhooks, hworld, htrace, _, _, _, _, _⟩ :=
    Inv_exec endpoints _ sched _ s (Inv_start endpoints (ext.Process.start world)) hexec
  have hh : s.proc.hooks = endpoints.map Run.hook := by
    rw [hhooks, hdone, List.take_length]
    rfl
  obtain ⟨g1, g2, _, _⟩ := ext.signal_spec s.proc
  refine ⟨hh, ?_, ?_, rfl, ?_⟩
  · rw [g1, hh, hworld, stops_foldr]
    rfl
  · rw [g2, hh, htrace]
    simp [ext.Process.start]
  · obtain ⟨s2, h2, k1, k2, _⟩ := exec_sim endpoints (fun e => { e with stop := none })
      (fun _ => rfl) sched (Run.start (ext.Process.start world))
      (Run.start (ext.Process.start world)) s rfl rfl rfl hexec
    refine ⟨s2, h2, ?_⟩
    simp only [Run.result, List.length_map, k1, k2]

/-- C3 at a concrete input: three listeners, the second with a failing `Stop`; all three are
stopped, last first. -/
theorem Run_registers_stop_hooks_witness :
    ∃ s, Run.exec [closedServer, brokenServer, quietServer] (Run.start (ext.Process.start []))
        [Step.main, Step.main, Step.ret 0, Step.main] = some s ∧
      s.launched = 3 ∧
      stops (ext.init.signal s.proc).world = [quietServer, brokenServer, closedServer] :=
  ⟨_, rfl, rfl,
    (Run_registers_stop_hooks [closedServer, brokenServer, quietServer] []
      [Step.main, Step.main, Step.ret 0, Step.main] _ rfl rfl).2.1⟩

end endpoint
